import Mathlib

/-!
Shallow embedding of the data-cleaning and feature-engineering pipeline of
`src/amazon.py` (the DATA CLEANING block, lines 110-119):

```
numeric_cols = df.select_dtypes(include=np.number).columns.tolist()
if numeric_cols:
    imputer = SimpleImputer(strategy='mean')
    df[numeric_cols] = imputer.fit_transform(df[numeric_cols])
df["Order_Date"] = pd.to_datetime(df["Order_Date"], errors="coerce")
df["Delivery_Date"] = pd.to_datetime(df["Delivery_Date"], errors="coerce")
df["Lead_Time_Days"] = (df["Delivery_Date"] - df["Order_Date"]).dt.days
df["RFM_Score"] = df["Purchase_Frequency"] * df["Monetary_Value"]
df["Normalized_Shipping_Cost"] = MinMaxScaler().fit_transform(df[["Shipping_Cost"]])
```

A row of the dataframe carries the three numeric columns the pipeline reads by
name (`Shipping_Cost`, `Purchase_Frequency`, `Monetary_Value`), the two date
columns, an arbitrary list of further numeric columns (`Order_ID`,
`Stock_Level`, ... — imputed but otherwise not read), and an arbitrary list of
non-numeric (categorical) columns such as `Return_Reason`.  Missing numeric
cells (pandas `NaN`) are `none`; numeric values are `ℚ`.  A date cell either
parses to a calendar day number or is unparseable (pandas coerces the latter to
`NaT`, i.e. `none`).

`SimpleImputer(strategy='mean')` replaces each missing numeric cell by the
arithmetic mean of the non-missing cells of its column; fitting fails (the
script aborts with an exception) when a numeric column has no observed value,
which includes the zero-row table in particular.  `MinMaxScaler` computes
`scale = 1 / data_range` where a zero `data_range` is replaced by `1`
(sklearn `_handle_zeros_in_scale`), and transforms `x` to
`x * scale + (0 - data_min * scale)`.  Failure of any step aborts the script
run, so the caller never observes a partially transformed table: the pipeline
is modelled as `Except String`.
-/

/-- A cell of the `Order_Date` / `Delivery_Date` columns: either a value that
`pd.to_datetime` parses to a calendar day, or one it cannot parse. -/
inductive DateVal where
  | date (days : Int)
  | bad
  deriving DecidableEq, Repr

/-- One row of the input dataframe. -/
structure Row where
  Shipping_Cost : Option ℚ
  Purchase_Frequency : Option ℚ
  Monetary_Value : Option ℚ
  Order_Date : DateVal
  Delivery_Date : DateVal
  otherNum : List (Option ℚ)
  catCols : List (Option String)
  deriving DecidableEq, Repr

/-- One row of the augmented dataframe after the full cleaning block: the date
columns have been overwritten by their parsed values and the three derived
columns have been appended. -/
structure OutRow where
  Shipping_Cost : Option ℚ
  Purchase_Frequency : Option ℚ
  Monetary_Value : Option ℚ
  Order_Date : Option Int
  Delivery_Date : Option Int
  otherNum : List (Option ℚ)
  catCols : List (Option String)
  Lead_Time_Days : Option Int
  RFM_Score : Option ℚ
  Normalized_Shipping_Cost : Option ℚ
  deriving DecidableEq, Repr

/-- `pd.to_datetime(·, errors="coerce")` on one cell: an unparseable value
becomes `NaT` (`none`) instead of raising. -/
def to_datetime : DateVal → Option Int
  | .date d => some d
  | .bad => none

/-- Arithmetic mean of the non-missing entries of a column, the statistic of
`SimpleImputer(strategy='mean')`; `none` when every entry is missing. -/
def colMean (vals : List (Option ℚ)) : Option ℚ :=
  let xs := vals.filterMap id
  if xs.isEmpty then none else some (xs.sum / xs.length)

/-- Number of `otherNum` columns of the table (pandas tables are rectangular,
so the width is read off the first row). -/
def tableWidth : List Row → Nat
  | [] => 0
  | r :: _ => r.otherNum.length

/-- The table is rectangular: every row has the full set of `otherNum`
columns. -/
def wellFormed (t : List Row) : Prop :=
  ∀ r ∈ t, r.otherNum.length = tableWidth t

instance (t : List Row) : Decidable (wellFormed t) :=
  List.decidableBAll _ t

/-- The `j`-th extra numeric column of the table. -/
def otherCol (t : List Row) (j : Nat) : List (Option ℚ) :=
  t.map (fun r => r.otherNum.getD j none)

/-- Mean of the `Shipping_Cost` column. -/
def shipMean (t : List Row) : Option ℚ :=
  colMean (t.map (fun r => r.Shipping_Cost))

/-- Mean of the `Purchase_Frequency` column. -/
def pfMean (t : List Row) : Option ℚ :=
  colMean (t.map (fun r => r.Purchase_Frequency))

/-- Mean of the `Monetary_Value` column. -/
def mvMean (t : List Row) : Option ℚ :=
  colMean (t.map (fun r => r.Monetary_Value))

/-- Means of the extra numeric columns. -/
def otherMeans (t : List Row) : List (Option ℚ) :=
  (List.range (tableWidth t)).map (fun j => colMean (otherCol t j))

/-- `SimpleImputer.fit` succeeds exactly when every numeric column has at
least one observed value (sklearn drops an all-`NaN` column, which makes the
assignment `df[numeric_cols] = ...` fail; a zero-row table fails the fit). -/
def imputeOk (t : List Row) : Bool :=
  (shipMean t).isSome && (pfMean t).isSome && (mvMean t).isSome &&
    (otherMeans t).all (fun m => m.isSome)

/-- Transform of one row by the fitted imputer: each missing numeric cell is
replaced by its column's mean; non-numeric cells and date cells are not
touched. -/
def imputeRow (t : List Row) (r : Row) : Row :=
  { r with
    Shipping_Cost := some (r.Shipping_Cost.getD ((shipMean t).getD 0))
    Purchase_Frequency := some (r.Purchase_Frequency.getD ((pfMean t).getD 0))
    Monetary_Value := some (r.Monetary_Value.getD ((mvMean t).getD 0))
    otherNum := (List.range (tableWidth t)).map
      (fun j => some ((r.otherNum.getD j none).getD
        (((otherMeans t).getD j none).getD 0))) }

/-- Lines 110-113: mean-imputation of all numeric columns
(`SimpleImputer(strategy='mean').fit_transform`). -/
def simpleImputer (t : List Row) : Except String (List Row) :=
  if imputeOk t then .ok (t.map (imputeRow t)) else .error "imputer: numeric column has no observed value"

/-- Line 117: `(Delivery_Date - Order_Date).dt.days`; `NaT` in either operand
propagates to a missing day count. -/
def leadTimeDays (o d : Option Int) : Option Int :=
  match o, d with
  | some a, some b => some (b - a)
  | _, _ => none

/-- Line 118: elementwise product of the two columns; `NaN` propagates. -/
def rfmScore (p m : Option ℚ) : Option ℚ :=
  match p, m with
  | some a, some b => some (a * b)
  | _, _ => none

/-- Smallest value of a column (`np.min`, what `MinMaxScaler.fit` records as
`data_min_`); `none` on an empty column. -/
def colMin : List ℚ → Option ℚ
  | [] => none
  | x :: xs =>
    some (match colMin xs with
      | none => x
      | some m => min x m)

/-- Largest value of a column (`data_max_` of `MinMaxScaler.fit`). -/
def colMax : List ℚ → Option ℚ
  | [] => none
  | x :: xs =>
    some (match colMax xs with
      | none => x
      | some m => max x m)

/-- `MinMaxScaler` transform of one value, given the fitted `data_min_` and
`data_max_`: `scale_ = (1 - 0) / handle_zeros(data_max_ - data_min_)` where a
zero range is replaced by `1`, `min_ = 0 - data_min_ * scale_`, and
`X_scaled = X * scale_ + min_`. -/
def minMaxScale (dmin dmax x : ℚ) : ℚ :=
  let dataRange := dmax - dmin
  let scale := if dataRange = 0 then 1 else 1 / dataRange
  x * scale + (0 - dmin * scale)

/-- The observed (non-missing) values of the `Shipping_Cost` column, the data
`MinMaxScaler` is fitted on at line 119. -/
def shipVals (t : List Row) : List ℚ :=
  (t.map (fun r => r.Shipping_Cost)).filterMap id

/-- Lines 115-119 applied to one (already imputed) row, given the fitted
min and max of the shipping-cost column: parse the two dates, derive
`Lead_Time_Days`, `RFM_Score` and `Normalized_Shipping_Cost`. -/
def derivedRow (dmin dmax : ℚ) (r : Row) : OutRow :=
  let o := to_datetime r.Order_Date
  let d := to_datetime r.Delivery_Date
  { Shipping_Cost := r.Shipping_Cost
    Purchase_Frequency := r.Purchase_Frequency
    Monetary_Value := r.Monetary_Value
    Order_Date := o
    Delivery_Date := d
    otherNum := r.otherNum
    catCols := r.catCols
    Lead_Time_Days := leadTimeDays o d
    RFM_Score := rfmScore r.Purchase_Frequency r.Monetary_Value
    Normalized_Shipping_Cost := r.Shipping_Cost.map (minMaxScale dmin dmax) }

/-- The whole DATA CLEANING block, lines 110-119, in source order: impute the
numeric columns, then parse the dates and append the three derived columns,
fitting `MinMaxScaler` on the imputed shipping-cost column.  Any failing step
aborts the script run, so the caller receives either the fully augmented table
or an error, never an intermediate table. -/
def runPipeline (t : List Row) : Except String (List OutRow) :=
  match simpleImputer t with
  | .error e => .error e
  | .ok t₁ =>
    match colMin (shipVals t₁), colMax (shipVals t₁) with
    | some dmin, some dmax => .ok (t₁.map (derivedRow dmin dmax))
    | _, _ => .error "scaler: empty column"

/-- The augmented row the pipeline produces for input row `r` when run on
table `t` (the whole-table statistics — column means and the min/max of the
imputed shipping-cost column — are taken from `t`). -/
def outRow (t : List Row) (r : Row) : OutRow :=
  let t₁ := t.map (imputeRow t)
  derivedRow ((colMin (shipVals t₁)).getD 0) ((colMax (shipVals t₁)).getD 0)
    (imputeRow t r)

/-- The observed shipping costs read back from the augmented table. -/
def outShipVals (out : List OutRow) : List ℚ :=
  (out.map (fun o => o.Shipping_Cost)).filterMap id

/-- Concrete test table, the scenario of the specification: shipping costs
`[10, 20, 30]`, order/delivery day pairs `[(0, 2), (0, unparseable), (4, 3)]`,
purchase-frequency/monetary pairs `[(2, 100), (5, 50), (1, 10)]`, one extra
numeric column with a missing cell and one categorical column with a missing
cell. -/
def wRow1 : Row := ⟨some 10, some 2, some 100, .date 0, .date 2, [some 1], [some "Damaged"]⟩

/-- Second row of the test table; its delivery date does not parse and its
extra numeric cell is missing. -/
def wRow2 : Row := ⟨some 20, some 5, some 50, .date 0, .bad, [none], [none]⟩

/-- Third row of the test table; its delivery date precedes its order date. -/
def wRow3 : Row := ⟨some 30, some 1, some 10, .date 4, .date 3, [some 3], [some "Wrong Item"]⟩

/-- The three-row test table. -/
def wTable : List Row := [wRow1, wRow2, wRow3]

/-- The test table after imputation: the missing extra numeric cell is filled
with the column mean `(1 + 3) / 2 = 2`; the missing categorical cell stays. -/
def wImp : List Row :=
  [⟨some 10, some 2, some 100, .date 0, .date 2, [some 1], [some "Damaged"]⟩,
   ⟨some 20, some 5, some 50, .date 0, .bad, [some 2], [none]⟩,
   ⟨some 30, some 1, some 10, .date 4, .date 3, [some 3], [some "Wrong Item"]⟩]

/-- The fully augmented test table: lead times `[2, missing, -1]`, RFM scores
`[200, 250, 10]`, normalized shipping costs `[0, 1/2, 1]`. -/
def wOut : List OutRow :=
  [⟨some 10, some 2, some 100, some 0, some 2, [some 1], [some "Damaged"],
     some 2, some 200, some 0⟩,
   ⟨some 20, some 5, some 50, some 0, none, [some 2], [none],
     none, some 250, some (1/2)⟩,
   ⟨some 30, some 1, some 10, some 4, some 3, [some 3], [some "Wrong Item"],
     some (-1), some 10, some 1⟩]

/-- A one-row table whose shipping-cost column necessarily has zero
variance. -/
def wConstTable : List Row :=
  [⟨some 7, some 1, some 2, .date 0, .date 1, [], []⟩]

/-- The test table with its first two rows swapped. -/
def wTablePerm : List Row := [wRow2, wRow1, wRow3]

example : to_datetime (.date 5) = some 5 := rfl

example : leadTimeDays (some 5) (some 3) = some (-2) := rfl

example : colMean [some 1, none, some 3] = some 2 := by with_unfolding_all rfl

example : colMin [3, 1, 2] = some 1 := by with_unfolding_all rfl

example : minMaxScale 10 30 20 = 1/2 := by with_unfolding_all rfl

/-! Helper lemmas about the column statistics. -/

theorem colMin_eq_none_iff (l : List ℚ) : colMin l = none ↔ l = [] := by
  cases l <;> simp [colMin]

theorem colMax_eq_none_iff (l : List ℚ) : colMax l = none ↔ l = [] := by
  cases l <;> simp [colMax]

theorem colMin_eq_some_iff (l : List ℚ) (a : ℚ) :
    colMin l = some a ↔ a ∈ l ∧ ∀ b ∈ l, a ≤ b := by
  induction l generalizing a with
  | nil => simp [colMin]
  | cons x xs ih =>
    cases hxs : colMin xs with
    | none =>
      have hnil : xs = [] := (colMin_eq_none_iff xs).mp hxs
      subst hnil
      constructor
      · intro h
        have hx : x = a := by simpa [colMin] using h
        subst hx
        simp
      · rintro ⟨hmem, -⟩
        have hx : a = x := by simpa using hmem
        subst hx
        simp [colMin]
    | some m =>
      have hm := (ih m).mp hxs
      have hcons : colMin (x :: xs) = some (min x m) := by simp [colMin, hxs]
      rw [hcons]
      constructor
      · intro h
        have ha : min x m = a := Option.some.inj h
        subst ha
        refine ⟨?_, ?_⟩
        · rcases min_choice x m with hc | hc
          · rw [hc]; exact List.mem_cons_self x xs
          · rw [hc]; exact List.mem_cons_of_mem x hm.1
        · intro b hb
          rcases List.mem_cons.mp hb with hb | hb
          · rw [hb]; exact min_le_left x m
          · exact le_trans (min_le_right x m) (hm.2 b hb)
      · rintro ⟨hmem, hlb⟩
        have hax : a ≤ x := hlb x (List.mem_cons_self x xs)
        have ham : a ≤ m := hlb m (List.mem_cons_of_mem x hm.1)
        have h2 : min x m ≤ a := by
          rcases List.mem_cons.mp hmem with h | h
          · rw [← h] at *; exact min_le_left a m
          · exact le_trans (min_le_right x m) (hm.2 a h)
        exact congrArg some (le_antisymm h2 (le_min hax ham))

theorem colMax_eq_some_iff (l : List ℚ) (a : ℚ) :
    colMax l = some a ↔ a ∈ l ∧ ∀ b ∈ l, b ≤ a := by
  induction l generalizing a with
  | nil => simp [colMax]
  | cons x xs ih =>
    cases hxs : colMax xs with
    | none =>
      have hnil : xs = [] := (colMax_eq_none_iff xs).mp hxs
      subst hnil
      constructor
      · intro h
        have hx : x = a := by simpa [colMax] using h
        subst hx
        simp
      · rintro ⟨hmem, -⟩
        have hx : a = x := by simpa using hmem
        subst hx
        simp [colMax]
    | some m =>
      have hm := (ih m).mp hxs
      have hcons : colMax (x :: xs) = some (max x m) := by simp [colMax, hxs]
      rw [hcons]
      constructor
      · intro h
        have ha : max x m = a := Option.some.inj h
        subst ha
        refine ⟨?_, ?_⟩
        · rcases max_choice x m with hc | hc
          · rw [hc]; exact List.mem_cons_self x xs
          · rw [hc]; exact List.mem_cons_of_mem x hm.1
        · intro b hb
          rcases List.mem_cons.mp hb with hb | hb
          · rw [hb]; exact le_max_left x m
          · exact le_trans (hm.2 b hb) (le_max_right x m)
      · rintro ⟨hmem, hub⟩
        have hax : x ≤ a := hub x (List.mem_cons_self x xs)
        have ham : m ≤ a := hub m (List.mem_cons_of_mem x hm.1)
        have h2 : a ≤ max x m := by
          rcases List.mem_cons.mp hmem with h | h
          · rw [← h] at *; exact le_max_left a m
          · exact le_trans (hm.2 a h) (le_max_right x m)
        exact congrArg some (le_antisymm (max_le hax ham) h2)

theorem colMin_perm {l₁ l₂ : List ℚ} (h : l₁.Perm l₂) : colMin l₁ = colMin l₂ := by
  cases h2 : colMin l₂ with
  | none =>
    have : l₂ = [] := (colMin_eq_none_iff l₂).mp h2
    subst this
    have : l₁ = [] := h.eq_nil
    simp [this, colMin]
  | some a =>
    rcases (colMin_eq_some_iff l₂ a).mp h2 with ⟨hmem, hlb⟩
    exact (colMin_eq_some_iff l₁ a).mpr
      ⟨h.mem_iff.mpr hmem, fun b hb => hlb b (h.mem_iff.mp hb)⟩

theorem colMax_perm {l₁ l₂ : List ℚ} (h : l₁.Perm l₂) : colMax l₁ = colMax l₂ := by
  cases h2 : colMax l₂ with
  | none =>
    have : l₂ = [] := (colMax_eq_none_iff l₂).mp h2
    subst this
    have : l₁ = [] := h.eq_nil
    simp [this, colMax]
  | some a =>
    rcases (colMax_eq_some_iff l₂ a).mp h2 with ⟨hmem, hub⟩
    exact (colMax_eq_some_iff l₁ a).mpr
      ⟨h.mem_iff.mpr hmem, fun b hb => hub b (h.mem_iff.mp hb)⟩

theorem colMean_perm {v₁ v₂ : List (Option ℚ)} (h : v₁.Perm v₂) :
    colMean v₁ = colMean v₂ := by
  have hf := h.filterMap id
  have hemp : (v₁.filterMap id).isEmpty = (v₂.filterMap id).isEmpty := by
    have hf2 := hf
    cases h1 : v₁.filterMap id with
    | nil =>
      rw [h1] at hf2
      rw [hf2.symm.eq_nil]
    | cons a l =>
      cases h2 : v₂.filterMap id with
      | nil =>
        rw [h1, h2] at hf2
        exact absurd hf2.eq_nil (by simp)
      | cons b m => rfl
  simp only [colMean, hf.sum_eq, hf.length_eq, hemp]

theorem colMean_isSome_iff (v : List (Option ℚ)) :
    (colMean v).isSome ↔ v.filterMap id ≠ [] := by
  by_cases h : v.filterMap id = [] <;>
    simp [colMean, List.isEmpty_iff, h]

theorem colMin_isSome_of_ne_nil {l : List ℚ} (h : l ≠ []) : ∃ a, colMin l = some a := by
  cases hc : colMin l with
  | none => exact absurd ((colMin_eq_none_iff l).mp hc) h
  | some a => exact ⟨a, rfl⟩

theorem colMax_isSome_of_ne_nil {l : List ℚ} (h : l ≠ []) : ∃ a, colMax l = some a := by
  cases hc : colMax l with
  | none => exact absurd ((colMax_eq_none_iff l).mp hc) h
  | some a => exact ⟨a, rfl⟩

theorem imputeOk_ne_nil {t : List Row} (h : imputeOk t = true) : t ≠ [] := by
  intro hnil
  subst hnil
  simp [imputeOk, shipMean, colMean] at h

theorem filterMap_id_map_some {α β : Type} (f : α → β) (l : List α) :
    (l.map (fun a => some (f a))).filterMap id = l.map f := by
  induction l with
  | nil => rfl
  | cons x xs ih => simp [ih]

theorem shipVals_imputed (t : List Row) :
    shipVals (t.map (imputeRow t)) =
      t.map (fun r => r.Shipping_Cost.getD ((shipMean t).getD 0)) := by
  unfold shipVals
  rw [List.map_map]
  exact filterMap_id_map_some _ t

theorem simpleImputer_ok_elim {t t₁ : List Row} (h : simpleImputer t = .ok t₁) :
    imputeOk t = true ∧ t₁ = t.map (imputeRow t) := by
  by_cases hok : imputeOk t
  · refine ⟨hok, ?_⟩
    simp only [simpleImputer, if_pos hok] at h
    exact (Except.ok.inj h).symm
  · simp [simpleImputer, hok] at h

theorem runPipeline_ok (t : List Row) (h : imputeOk t = true) :
    runPipeline t = .ok (t.map (outRow t)) := by
  have hne : t ≠ [] := imputeOk_ne_nil h
  have hvne : shipVals (t.map (imputeRow t)) ≠ [] := by
    rw [shipVals_imputed]
    simpa using hne
  obtain ⟨dmin, hmin⟩ := colMin_isSome_of_ne_nil hvne
  obtain ⟨dmax, hmax⟩ := colMax_isSome_of_ne_nil hvne
  have hsi : simpleImputer t = .ok (t.map (imputeRow t)) := by
    simp [simpleImputer, h]
  unfold runPipeline
  rw [hsi]
  dsimp only
  rw [hmin, hmax]
  dsimp only
  rw [List.map_map]
  have hfun : derivedRow dmin dmax ∘ imputeRow t = outRow t := by
    funext r
    simp [outRow, Function.comp, hmin, hmax]
  rw [hfun]

theorem runPipeline_err (t : List Row) (h : imputeOk t = false) :
    runPipeline t = .error "imputer: numeric column has no observed value" := by
  have hsi : simpleImputer t = .error "imputer: numeric column has no observed value" := by
    simp [simpleImputer, h]
  unfold runPipeline
  rw [hsi]

theorem runPipeline_ok_elim {t : List Row} {out : List OutRow}
    (h : runPipeline t = .ok out) : imputeOk t = true ∧ out = t.map (outRow t) := by
  cases hok : imputeOk t with
  | false =>
    rw [runPipeline_err t hok] at h
    exact absurd h (by simp)
  | true =>
    rw [runPipeline_ok t hok] at h
    exact ⟨rfl, (Except.ok.inj h).symm⟩

theorem leadTimeDays_none_left (d : Option Int) : leadTimeDays none d = none := by
  cases d <;> rfl

theorem leadTimeDays_none_right (o : Option Int) : leadTimeDays o none = none := by
  cases o <;> rfl

theorem getD_map_range {α : Type} (f : Nat → α) (k j : Nat) (hj : j < k) (d : α) :
    (((List.range k).map f).getD j d) = f j := by
  simp [List.getD_eq_getElem?_getD, List.getElem?_range hj]

theorem imputeRow_otherNum_length (t : List Row) (r : Row) :
    (imputeRow t r).otherNum.length = tableWidth t := by
  simp [imputeRow]

theorem imputeRow_otherNum_getD (t : List Row) (r : Row) (j : Nat)
    (hj : j < tableWidth t) :
    (imputeRow t r).otherNum.getD j none =
      some ((r.otherNum.getD j none).getD (((otherMeans t).getD j none).getD 0)) := by
  show (((List.range (tableWidth t)).map _).getD j none) = _
  rw [getD_map_range _ _ _ hj]

theorem tableWidth_imputed (t : List Row) : tableWidth (t.map (imputeRow t)) = tableWidth t := by
  cases t with
  | nil => rfl
  | cons r rs =>
    show (imputeRow (r :: rs) r).otherNum.length = tableWidth (r :: rs)
    rw [imputeRow_otherNum_length]

theorem colMean_map_some_isSome {α : Type} (g : α → ℚ) (l : List α) (h : l ≠ []) :
    (colMean (l.map (fun a => some (g a)))).isSome := by
  rw [colMean_isSome_iff, filterMap_id_map_some]
  simpa using h

theorem imputeOk_elim {t : List Row} (h : imputeOk t = true) :
    (shipMean t).isSome = true ∧ (pfMean t).isSome = true ∧ (mvMean t).isSome = true ∧
      ∀ m ∈ otherMeans t, m.isSome = true := by
  simp only [imputeOk, Bool.and_eq_true, List.all_eq_true] at h
  exact ⟨h.1.1.1, h.1.1.2, h.1.2, h.2⟩

theorem outShipVals_eq (t : List Row) :
    outShipVals (t.map (outRow t)) = shipVals (t.map (imputeRow t)) := by
  unfold outShipVals shipVals
  rw [List.map_map, List.map_map]
  rfl

theorem tableWidth_perm {t₁ t₂ : List Row} (hw : wellFormed t₁) (hp : t₁.Perm t₂) :
    tableWidth t₁ = tableWidth t₂ := by
  cases h1 : t₁ with
  | nil =>
    have h2 : t₂ = [] := by
      rw [h1] at hp
      exact hp.symm.eq_nil
    rw [h2]
  | cons r rs =>
    cases h2 : t₂ with
    | nil =>
      rw [h1, h2] at hp
      exact absurd hp.eq_nil (by simp)
    | cons q qs =>
      have hq : q ∈ t₁ := hp.mem_iff.mpr (by rw [h2]; exact List.mem_cons_self q qs)
      have hlen := hw q hq
      rw [h1] at hlen
      simp only [tableWidth] at hlen
      simp only [tableWidth]
      exact hlen.symm

theorem shipMean_perm {t₁ t₂ : List Row} (hp : t₁.Perm t₂) : shipMean t₁ = shipMean t₂ :=
  colMean_perm (hp.map _)

theorem pfMean_perm {t₁ t₂ : List Row} (hp : t₁.Perm t₂) : pfMean t₁ = pfMean t₂ :=
  colMean_perm (hp.map _)

theorem mvMean_perm {t₁ t₂ : List Row} (hp : t₁.Perm t₂) : mvMean t₁ = mvMean t₂ :=
  colMean_perm (hp.map _)

theorem otherMeans_perm {t₁ t₂ : List Row} (hw : wellFormed t₁) (hp : t₁.Perm t₂) :
    otherMeans t₁ = otherMeans t₂ := by
  unfold otherMeans
  rw [tableWidth_perm hw hp]
  exact List.map_congr_left (fun j _ => colMean_perm (hp.map _))

theorem imputeRow_perm {t₁ t₂ : List Row} (hw : wellFormed t₁) (hp : t₁.Perm t₂) :
    imputeRow t₁ = imputeRow t₂ := by
  funext r
  unfold imputeRow
  rw [shipMean_perm hp, pfMean_perm hp, mvMean_perm hp, otherMeans_perm hw hp,
    tableWidth_perm hw hp]

theorem imputeOk_perm {t₁ t₂ : List Row} (hw : wellFormed t₁) (hp : t₁.Perm t₂) :
    imputeOk t₁ = imputeOk t₂ := by
  unfold imputeOk
  rw [shipMean_perm hp, pfMean_perm hp, mvMean_perm hp, otherMeans_perm hw hp]

theorem shipVals_perm {t₁ t₂ : List Row} (hp : t₁.Perm t₂) :
    (shipVals t₁).Perm (shipVals t₂) :=
  (hp.map _).filterMap _

theorem outRow_perm {t₁ t₂ : List Row} (hw : wellFormed t₁) (hp : t₁.Perm t₂) :
    outRow t₁ = outRow t₂ := by
  have hir : imputeRow t₁ = imputeRow t₂ := imputeRow_perm hw hp
  have hperm : (shipVals (t₁.map (imputeRow t₁))).Perm (shipVals (t₂.map (imputeRow t₂))) := by
    rw [← hir]
    exact shipVals_perm (hp.map _)
  funext r
  show derivedRow ((colMin (shipVals (t₁.map (imputeRow t₁)))).getD 0)
      ((colMax (shipVals (t₁.map (imputeRow t₁)))).getD 0) (imputeRow t₁ r) =
    derivedRow ((colMin (shipVals (t₂.map (imputeRow t₂)))).getD 0)
      ((colMax (shipVals (t₂.map (imputeRow t₂)))).getD 0) (imputeRow t₂ r)
  rw [colMin_perm hperm, colMax_perm hperm, hir]

theorem minMaxScale_eq_div {dmin dmax x : ℚ} (h : dmax - dmin ≠ 0) :
    minMaxScale dmin dmax x = (x - dmin) / (dmax - dmin) := by
  show x * (if dmax - dmin = 0 then 1 else 1 / (dmax - dmin)) +
      (0 - dmin * (if dmax - dmin = 0 then 1 else 1 / (dmax - dmin))) =
    (x - dmin) / (dmax - dmin)
  rw [if_neg h]
  field_simp
  ring

theorem minMaxScale_self (dmin dmax : ℚ) : minMaxScale dmin dmax dmin = 0 := by
  unfold minMaxScale
  by_cases h : dmax - dmin = 0 <;> simp [h]

/-- C2: for every row of the table, the pipeline sets `Lead_Time_Days` to the
delivery date minus the order date in whole days when both dates parse, sets
it to null when either date fails to parse (unparseable dates are coerced to
null rather than raising), and never clamps the result, so a negative lead
time is emitted as-is. -/
theorem lead_time_days_correct (t : List Row) (out : List OutRow) (i : Nat) (r : Row)
    (h : runPipeline t = .ok out) (hr : t[i]? = some r) :
    ∃ o, out[i]? = some o ∧
      o.Lead_Time_Days = leadTimeDays (to_datetime r.Order_Date) (to_datetime r.Delivery_Date) ∧
      (∀ a b, to_datetime r.Order_Date = some a → to_datetime r.Delivery_Date = some b →
        o.Lead_Time_Days = some (b - a)) ∧
      (to_datetime r.Order_Date = none → o.Lead_Time_Days = none) ∧
      (to_datetime r.Delivery_Date = none → o.Lead_Time_Days = none) := by
  obtain ⟨hok, hout⟩ := runPipeline_ok_elim h
  subst hout
  refine ⟨outRow t r, ?_, rfl, ?_, ?_, ?_⟩
  · rw [List.getElem?_map, hr]
    rfl
  · intro a b ha hb
    show leadTimeDays (to_datetime r.Order_Date) (to_datetime r.Delivery_Date) = some (b - a)
    rw [ha, hb]
    rfl
  · intro ha
    show leadTimeDays (to_datetime r.Order_Date) (to_datetime r.Delivery_Date) = none
    rw [ha]
    exact leadTimeDays_none_left _
  · intro hd
    show leadTimeDays (to_datetime r.Order_Date) (to_datetime r.Delivery_Date) = none
    rw [hd]
    exact leadTimeDays_none_right _

/-- C2 witness: the concrete table at its third row, whose delivery day 3
precedes its order day 4: the lead time is `-1` and is not clamped. -/
theorem lead_time_days_correct_witness :
    (runPipeline wTable = .ok wOut ∧ wTable[2]? = some wRow3) ∧
      (∃ o, wOut[2]? = some o ∧
        o.Lead_Time_Days = leadTimeDays (to_datetime wRow3.Order_Date) (to_datetime wRow3.Delivery_Date) ∧
        (∀ a b, to_datetime wRow3.Order_Date = some a → to_datetime wRow3.Delivery_Date = some b →
          o.Lead_Time_Days = some (b - a)) ∧
        (to_datetime wRow3.Order_Date = none → o.Lead_Time_Days = none) ∧
        (to_datetime wRow3.Delivery_Date = none → o.Lead_Time_Days = none)) :=
  ⟨⟨by with_unfolding_all rfl, rfl⟩,
    lead_time_days_correct wTable wOut 2 wRow3 (by with_unfolding_all rfl) rfl⟩

/-- C3: every output row's RFM score is exactly the product of that row's
purchase-frequency and monetary-value columns, with no clipping, binning or
other transformation. -/
theorem rfm_score_product (t : List Row) (out : List OutRow)
    (h : runPipeline t = .ok out) :
    ∀ o ∈ out, ∃ p m, o.Purchase_Frequency = some p ∧ o.Monetary_Value = some m ∧
      o.RFM_Score = some (p * m) := by
  obtain ⟨hok, hout⟩ := runPipeline_ok_elim h
  subst hout
  intro o ho
  rcases List.mem_map.mp ho with ⟨r, hr, rfl⟩
  exact ⟨_, _, rfl, rfl, rfl⟩

/-- C3 witness: on the concrete table the RFM scores are the products
`2 * 100`, `5 * 50`, `1 * 10`. -/
theorem rfm_score_product_witness :
    runPipeline wTable = .ok wOut ∧
      ∀ o ∈ wOut, ∃ p m, o.Purchase_Frequency = some p ∧ o.Monetary_Value = some m ∧
        o.RFM_Score = some (p * m) :=
  ⟨by with_unfolding_all rfl, rfm_score_product wTable wOut (by with_unfolding_all rfl)⟩

/-- C8: the cleaning (imputation) step leaves every non-numeric (categorical)
column unchanged: missing categorical cells are never filled, and every
categorical cell is identical before and after imputation. -/
theorem categorical_untouched (t t₁ : List Row) (i : Nat) (r : Row)
    (h : simpleImputer t = .ok t₁) (hr : t[i]? = some r) :
    ∃ q, t₁[i]? = some q ∧ q.catCols = r.catCols := by
  obtain ⟨hok, ht₁⟩ := simpleImputer_ok_elim h
  subst ht₁
  refine ⟨imputeRow t r, ?_, rfl⟩
  rw [List.getElem?_map, hr]
  rfl

/-- C8 witness: the concrete table at its second row, whose categorical cell
is missing: after imputation the cell is still missing and unchanged. -/
theorem categorical_untouched_witness :
    (simpleImputer wTable = .ok wImp ∧ wTable[1]? = some wRow2) ∧
      (∃ q, wImp[1]? = some q ∧ q.catCols = wRow2.catCols) :=
  ⟨⟨by with_unfolding_all rfl, rfl⟩,
    categorical_untouched wTable wImp 1 wRow2 (by with_unfolding_all rfl) rfl⟩

/-- C6: the pipeline is atomic: for every input table it either signals an
error (and the caller receives no augmented table) or returns the fully
augmented table — one output row per input row, every row's derived columns
populated by their defining formulas — never a half-built table. -/
theorem pipeline_atomic (t : List Row) :
    (∃ e, runPipeline t = .error e) ∨
    (∃ out, runPipeline t = .ok out ∧ out = t.map (outRow t) ∧
      out.length = t.length ∧
      ∀ o ∈ out, o.RFM_Score.isSome ∧ o.Normalized_Shipping_Cost.isSome ∧
        o.Lead_Time_Days = leadTimeDays o.Order_Date o.Delivery_Date) := by
  cases hok : imputeOk t with
  | false => exact Or.inl ⟨_, runPipeline_err t hok⟩
  | true =>
    refine Or.inr ⟨t.map (outRow t), runPipeline_ok t hok, rfl, by simp, ?_⟩
    intro o ho
    rcases List.mem_map.mp ho with ⟨r, hr, rfl⟩
    exact ⟨rfl, rfl, rfl⟩

/-- C10: there is an input table (one row has an unparseable date) whose fully
augmented output still contains a missing value in the numeric
`Lead_Time_Days` column, while all original numeric columns are populated:
imputation (lines 110-113) runs before lead-time derivation (line 117), so
derived numeric columns are never imputed. -/
theorem lead_time_not_imputed :
    ∃ (t : List Row) (out : List OutRow), runPipeline t = .ok out ∧
      ∃ o ∈ out, o.Lead_Time_Days = none ∧ o.Shipping_Cost.isSome ∧
        o.Purchase_Frequency.isSome ∧ o.Monetary_Value.isSome := by
  refine ⟨wTable, wOut, by with_unfolding_all rfl,
    ⟨some 20, some 5, some 50, some 0, none, [some 2], [none], none, some 250, some (1/2)⟩,
    ?_, rfl, rfl, rfl, rfl⟩
  unfold wOut
  exact List.mem_cons_of_mem _ (List.mem_cons_self _ _)

/-- C4: after the imputation step every numeric cell is populated: each
missing value in a numeric column has been replaced by that column's
arithmetic mean over the non-missing values of the current dataset (the
means `shipMean`, `pfMean`, `mvMean`, `otherMeans` are `colMean`s, i.e.
sums of observed values divided by their count). -/
theorem impute_no_missing_mean (t t₁ : List Row) (h : simpleImputer t = .ok t₁) :
    (∀ q ∈ t₁, q.Shipping_Cost.isSome ∧ q.Purchase_Frequency.isSome ∧
      q.Monetary_Value.isSome ∧ ∀ x ∈ q.otherNum, x.isSome) ∧
    t₁ = t.map (imputeRow t) ∧
    (∀ r ∈ t, r.Shipping_Cost = none → (imputeRow t r).Shipping_Cost = shipMean t) ∧
    (∀ r ∈ t, r.Purchase_Frequency = none → (imputeRow t r).Purchase_Frequency = pfMean t) ∧
    (∀ r ∈ t, r.Monetary_Value = none → (imputeRow t r).Monetary_Value = mvMean t) ∧
    (∀ r ∈ t, ∀ j, j < tableWidth t → r.otherNum.getD j none = none →
      (imputeRow t r).otherNum.getD j none = (otherMeans t).getD j none) := by
  obtain ⟨hok, ht₁⟩ := simpleImputer_ok_elim h
  obtain ⟨hs, hp, hm, ho⟩ := imputeOk_elim hok
  subst ht₁
  refine ⟨?_, rfl, ?_, ?_, ?_, ?_⟩
  · intro q hq
    rcases List.mem_map.mp hq with ⟨r, hr, rfl⟩
    refine ⟨rfl, rfl, rfl, ?_⟩
    intro x hx
    rcases List.mem_map.mp hx with ⟨j, hj, rfl⟩
    rfl
  · intro r hr hnone
    show some (r.Shipping_Cost.getD ((shipMean t).getD 0)) = shipMean t
    obtain ⟨ms, hms⟩ := Option.isSome_iff_exists.mp hs
    rw [hnone, hms]
    rfl
  · intro r hr hnone
    show some (r.Purchase_Frequency.getD ((pfMean t).getD 0)) = pfMean t
    obtain ⟨mp, hmp⟩ := Option.isSome_iff_exists.mp hp
    rw [hnone, hmp]
    rfl
  · intro r hr hnone
    show some (r.Monetary_Value.getD ((mvMean t).getD 0)) = mvMean t
    obtain ⟨mm, hmm⟩ := Option.isSome_iff_exists.mp hm
    rw [hnone, hmm]
    rfl
  · intro r hr j hj hnone
    rw [imputeRow_otherNum_getD t r j hj, hnone]
    have hjlen : j < (otherMeans t).length := by
      rw [otherMeans, List.length_map, List.length_range]
      exact hj
    have hget : (otherMeans t).getD j none = (otherMeans t).get ⟨j, hjlen⟩ := by
      rw [List.getD_eq_getElem?_getD, List.getElem?_eq_getElem hjlen]
      rfl
    have hmem : (otherMeans t).get ⟨j, hjlen⟩ ∈ otherMeans t := List.get_mem _ _ hjlen
    obtain ⟨v, hv⟩ := Option.isSome_iff_exists.mp (ho _ hmem)
    rw [Option.getD_none, hget, hv]
    rfl

/-- C4 witness: on the concrete table the imputer fills the missing extra
numeric cell of the second row with the column mean 2 and leaves every
numeric cell populated. -/
theorem impute_no_missing_mean_witness :
    simpleImputer wTable = .ok wImp ∧
      ((∀ q ∈ wImp, q.Shipping_Cost.isSome ∧ q.Purchase_Frequency.isSome ∧
        q.Monetary_Value.isSome ∧ ∀ x ∈ q.otherNum, x.isSome) ∧
      wImp = wTable.map (imputeRow wTable) ∧
      (∀ r ∈ wTable, r.Shipping_Cost = none →
        (imputeRow wTable r).Shipping_Cost = shipMean wTable) ∧
      (∀ r ∈ wTable, r.Purchase_Frequency = none →
        (imputeRow wTable r).Purchase_Frequency = pfMean wTable) ∧
      (∀ r ∈ wTable, r.Monetary_Value = none →
        (imputeRow wTable r).Monetary_Value = mvMean wTable) ∧
      (∀ r ∈ wTable, ∀ j, j < tableWidth wTable → r.otherNum.getD j none = none →
        (imputeRow wTable r).otherNum.getD j none = (otherMeans wTable).getD j none)) :=
  ⟨by with_unfolding_all rfl,
    impute_no_missing_mean wTable wImp (by with_unfolding_all rfl)⟩

/-- C5: for every table on which the imputer fit succeeds (at least one
observed value per numeric column), mean imputation is idempotent: running
the imputer on its own output returns that output unchanged. -/
theorem impute_idempotent (t t₁ : List Row) (h : simpleImputer t = .ok t₁) :
    simpleImputer t₁ = .ok t₁ := by
  obtain ⟨hok, ht₁⟩ := simpleImputer_ok_elim h
  subst ht₁
  have hne : t ≠ [] := imputeOk_ne_nil hok
  have hship : (shipMean (t.map (imputeRow t))).isSome := by
    rw [shipMean, List.map_map]
    exact colMean_map_some_isSome (fun r => r.Shipping_Cost.getD ((shipMean t).getD 0)) t hne
  have hpf : (pfMean (t.map (imputeRow t))).isSome := by
    rw [pfMean, List.map_map]
    exact colMean_map_some_isSome (fun r => r.Purchase_Frequency.getD ((pfMean t).getD 0)) t hne
  have hmv : (mvMean (t.map (imputeRow t))).isSome := by
    rw [mvMean, List.map_map]
    exact colMean_map_some_isSome (fun r => r.Monetary_Value.getD ((mvMean t).getD 0)) t hne
  have hother : ∀ m ∈ otherMeans (t.map (imputeRow t)), m.isSome = true := by
    intro m hm
    rw [otherMeans, tableWidth_imputed] at hm
    rcases List.mem_map.mp hm with ⟨j, hjr, rfl⟩
    have hjk : j < tableWidth t := List.mem_range.mp hjr
    have hcol : otherCol (t.map (imputeRow t)) j =
        t.map (fun r => some ((r.otherNum.getD j none).getD
          (((otherMeans t).getD j none).getD 0))) := by
      rw [otherCol, List.map_map]
      exact List.map_congr_left (fun r _ => imputeRow_otherNum_getD t r j hjk)
    rw [hcol]
    exact colMean_map_some_isSome _ t hne
  have hok2 : imputeOk (t.map (imputeRow t)) = true := by
    simp only [imputeOk, Bool.and_eq_true, List.all_eq_true]
    exact ⟨⟨⟨hship, hpf⟩, hmv⟩, hother⟩
  have hfix : (t.map (imputeRow t)).map (imputeRow (t.map (imputeRow t))) =
      t.map (imputeRow t) := by
    rw [List.map_map]
    apply List.map_congr_left
    intro r hr
    show imputeRow (t.map (imputeRow t)) (imputeRow t r) = imputeRow t r
    simp only [imputeRow, Option.getD_some]
    rw [tableWidth_imputed]
    simp only [Row.mk.injEq, eq_self_iff_true, true_and, and_true]
    apply List.map_congr_left
    intro j hj
    have hjk : j < tableWidth t := List.mem_range.mp hj
    rw [getD_map_range _ _ _ hjk]
    rfl
  have hstep : simpleImputer (t.map (imputeRow t)) =
      .ok ((t.map (imputeRow t)).map (imputeRow (t.map (imputeRow t)))) := by
    simp [simpleImputer, hok2]
  rw [hstep, hfix]

/-- C5 witness: imputing the already imputed concrete table returns it
unchanged. -/
theorem impute_idempotent_witness :
    simpleImputer wTable = .ok wImp ∧ simpleImputer wImp = .ok wImp :=
  ⟨by with_unfolding_all rfl,
    impute_idempotent wTable wImp (by with_unfolding_all rfl)⟩

theorem minMaxScale_max {dmin dmax : ℚ} (h : dmax - dmin ≠ 0) :
    minMaxScale dmin dmax dmax = 1 := by
  rw [minMaxScale_eq_div h]
  exact div_self h

theorem outRow_ship (t : List Row) (r : Row) :
    (outRow t r).Shipping_Cost = some (r.Shipping_Cost.getD ((shipMean t).getD 0)) := rfl

theorem outRow_norm (t : List Row) (r : Row) (dmin dmax : ℚ)
    (hmin : colMin (shipVals (t.map (imputeRow t))) = some dmin)
    (hmax : colMax (shipVals (t.map (imputeRow t))) = some dmax) :
    (outRow t r).Normalized_Shipping_Cost =
      some (minMaxScale dmin dmax (r.Shipping_Cost.getD ((shipMean t).getD 0))) := by
  show ((imputeRow t r).Shipping_Cost).map
      (minMaxScale ((colMin (shipVals (t.map (imputeRow t)))).getD 0)
        ((colMax (shipVals (t.map (imputeRow t)))).getD 0)) = _
  rw [hmin, hmax]
  rfl

/-- C1: for every dataset whose shipping-cost column (as fitted by the scaler)
has nonzero variance — observed minimum and maximum differ — every output row
carries a normalized shipping cost equal to `(x - min) / (max - min)` over
the current dataset's observed minimum and maximum, every such value lies in
`[0, 1]`, and the rows holding the minimum and maximum shipping costs map to
`0` and `1` respectively. -/
theorem norm_shipping_minmax (t : List Row) (out : List OutRow) (dmin dmax : ℚ)
    (h : runPipeline t = .ok out)
    (hmin : colMin (outShipVals out) = some dmin)
    (hmax : colMax (outShipVals out) = some dmax)
    (hvar : dmin ≠ dmax) :
    (∀ o ∈ out, ∃ x y, o.Shipping_Cost = some x ∧
      o.Normalized_Shipping_Cost = some y ∧
      y = (x - dmin) / (dmax - dmin) ∧ 0 ≤ y ∧ y ≤ 1 ∧
      (x = dmin → y = 0) ∧ (x = dmax → y = 1)) ∧
    (∃ o ∈ out, o.Shipping_Cost = some dmin ∧ o.Normalized_Shipping_Cost = some 0) ∧
    (∃ o ∈ out, o.Shipping_Cost = some dmax ∧ o.Normalized_Shipping_Cost = some 1) := by
  obtain ⟨hok, hout⟩ := runPipeline_ok_elim h
  subst hout
  rw [outShipVals_eq] at hmin hmax
  obtain ⟨hdminmem, hdminlb⟩ := (colMin_eq_some_iff _ _).mp hmin
  obtain ⟨hdmaxmem, hdmaxub⟩ := (colMax_eq_some_iff _ _).mp hmax
  have hlt : dmin < dmax := lt_of_le_of_ne (hdminlb dmax hdmaxmem) hvar
  have hRpos : (0:ℚ) < dmax - dmin := sub_pos.mpr hlt
  have hRne : dmax - dmin ≠ 0 := ne_of_gt hRpos
  refine ⟨?_, ?_, ?_⟩
  · intro o ho
    rcases List.mem_map.mp ho with ⟨r, hr, rfl⟩
    have hxmem : r.Shipping_Cost.getD ((shipMean t).getD 0) ∈
        shipVals (t.map (imputeRow t)) := by
      rw [shipVals_imputed]
      exact List.mem_map.mpr ⟨r, hr, rfl⟩
    have hdiv := minMaxScale_eq_div (x := r.Shipping_Cost.getD ((shipMean t).getD 0)) hRne
    refine ⟨r.Shipping_Cost.getD ((shipMean t).getD 0),
      minMaxScale dmin dmax (r.Shipping_Cost.getD ((shipMean t).getD 0)),
      outRow_ship t r, outRow_norm t r dmin dmax hmin hmax, hdiv, ?_, ?_, ?_, ?_⟩
    · rw [hdiv]
      exact div_nonneg (sub_nonneg.mpr (hdminlb _ hxmem)) (le_of_lt hRpos)
    · rw [hdiv]
      exact (div_le_one hRpos).mpr (sub_le_sub_right (hdmaxub _ hxmem) dmin)
    · intro hxe
      rw [hxe, minMaxScale_self]
    · intro hxe
      rw [hxe, minMaxScale_max hRne]
  · have hmem := hdminmem
    rw [shipVals_imputed] at hmem
    rcases List.mem_map.mp hmem with ⟨r, hr, hgr⟩
    refine ⟨outRow t r, List.mem_map.mpr ⟨r, hr, rfl⟩, ?_, ?_⟩
    · rw [outRow_ship, hgr]
    · rw [outRow_norm t r dmin dmax hmin hmax, hgr, minMaxScale_self]
  · have hmem := hdmaxmem
    rw [shipVals_imputed] at hmem
    rcases List.mem_map.mp hmem with ⟨r, hr, hgr⟩
    refine ⟨outRow t r, List.mem_map.mpr ⟨r, hr, rfl⟩, ?_, ?_⟩
    · rw [outRow_ship, hgr]
    · rw [outRow_norm t r dmin dmax hmin hmax, hgr, minMaxScale_max hRne]

/-- C1 witness: on the concrete table the observed minimum 10 and maximum 30
differ, the normalized costs are `[0, 1/2, 1]`, all in `[0, 1]`, and the
rows with costs 10 and 30 map to 0 and 1. -/
theorem norm_shipping_minmax_witness :
    (runPipeline wTable = .ok wOut ∧ colMin (outShipVals wOut) = some 10 ∧
      colMax (outShipVals wOut) = some 30 ∧ (10:ℚ) ≠ 30) ∧
    ((∀ o ∈ wOut, ∃ x y, o.Shipping_Cost = some x ∧
      o.Normalized_Shipping_Cost = some y ∧
      y = (x - 10) / (30 - 10) ∧ 0 ≤ y ∧ y ≤ 1 ∧
      (x = 10 → y = 0) ∧ (x = 30 → y = 1)) ∧
    (∃ o ∈ wOut, o.Shipping_Cost = some 10 ∧ o.Normalized_Shipping_Cost = some 0) ∧
    (∃ o ∈ wOut, o.Shipping_Cost = some 30 ∧ o.Normalized_Shipping_Cost = some 1)) :=
  ⟨⟨by with_unfolding_all rfl, by with_unfolding_all rfl, by with_unfolding_all rfl,
      by norm_num⟩,
    norm_shipping_minmax wTable wOut 10 30 (by with_unfolding_all rfl)
      (by with_unfolding_all rfl) (by with_unfolding_all rfl) (by norm_num)⟩

/-- C9: when the shipping-cost column fed to the scaler has zero variance
(all observed values identical, including any single-row table), the pipeline
does not divide by zero: it succeeds and outputs `0` as the normalized
shipping cost of every row (sklearn replaces a zero data range by 1). -/
theorem zero_variance_norm_zero (t t₁ : List Row)
    (h : simpleImputer t = .ok t₁)
    (hconst : ∀ x ∈ shipVals t₁, ∀ y ∈ shipVals t₁, x = y) :
    ∃ out, runPipeline t = .ok out ∧ out.length = t.length ∧
      ∀ o ∈ out, o.Normalized_Shipping_Cost = some 0 := by
  obtain ⟨hok, ht₁⟩ := simpleImputer_ok_elim h
  subst ht₁
  refine ⟨t.map (outRow t), runPipeline_ok t hok, by simp, ?_⟩
  intro o ho
  rcases List.mem_map.mp ho with ⟨r, hr, rfl⟩
  have hne : t ≠ [] := imputeOk_ne_nil hok
  have hvne : shipVals (t.map (imputeRow t)) ≠ [] := by
    rw [shipVals_imputed]
    simpa using hne
  obtain ⟨dmin, hmin⟩ := colMin_isSome_of_ne_nil hvne
  obtain ⟨dmax, hmax⟩ := colMax_isSome_of_ne_nil hvne
  rw [outRow_norm t r dmin dmax hmin hmax]
  have hxmem : r.Shipping_Cost.getD ((shipMean t).getD 0) ∈
      shipVals (t.map (imputeRow t)) := by
    rw [shipVals_imputed]
    exact List.mem_map.mpr ⟨r, hr, rfl⟩
  have hdminmem := ((colMin_eq_some_iff _ _).mp hmin).1
  have hxeq : r.Shipping_Cost.getD ((shipMean t).getD 0) = dmin :=
    hconst _ hxmem _ hdminmem
  rw [hxeq, minMaxScale_self]

/-- C9 witness: the one-row table with shipping cost 7: the scaler has
`min = max = 7` and the pipeline outputs normalized cost 0 without error. -/
theorem zero_variance_norm_zero_witness :
    (simpleImputer wConstTable = .ok wConstTable ∧
      ∀ x ∈ shipVals wConstTable, ∀ y ∈ shipVals wConstTable, x = y) ∧
    (∃ out, runPipeline wConstTable = .ok out ∧ out.length = wConstTable.length ∧
      ∀ o ∈ out, o.Normalized_Shipping_Cost = some 0) :=
  ⟨⟨by with_unfolding_all rfl, by with_unfolding_all decide⟩,
    zero_variance_norm_zero wConstTable wConstTable (by with_unfolding_all rfl)
      (by with_unfolding_all decide)⟩

/-- C7: the pipeline is row-order independent: for any rectangular table and
any permutation of its rows, the per-row transform `outRow` is the same
function on both orderings (every row, matched by identity, receives the same
derived values), the run succeeds on one ordering iff on the other, and the
output on the permuted table is the permuted rows mapped through the original
table's per-row transform. -/
theorem pipeline_perm_invariant (t₁ t₂ : List Row)
    (hw : wellFormed t₁) (hp : t₁.Perm t₂) :
    outRow t₁ = outRow t₂ ∧ (runPipeline t₁).isOk = (runPipeline t₂).isOk ∧
      runPipeline t₂ = Except.map (fun _ => t₂.map (outRow t₁)) (runPipeline t₁) := by
  have hor : outRow t₁ = outRow t₂ := outRow_perm hw hp
  have hok : imputeOk t₁ = imputeOk t₂ := imputeOk_perm hw hp
  have hok2 : imputeOk t₁ = true → imputeOk t₂ = true := fun h1 => by
    rw [← hok]
    exact h1
  have hok2f : imputeOk t₁ = false → imputeOk t₂ = false := fun h1 => by
    rw [← hok]
    exact h1
  refine ⟨hor, ?_, ?_⟩
  · cases h1 : imputeOk t₁ with
    | true =>
      rw [runPipeline_ok t₁ h1, runPipeline_ok t₂ (hok2 h1)]
      rfl
    | false =>
      rw [runPipeline_err t₁ h1, runPipeline_err t₂ (hok2f h1)]
  · cases h1 : imputeOk t₁ with
    | true =>
      rw [runPipeline_ok t₁ h1, runPipeline_ok t₂ (hok2 h1), ← hor]
      rfl
    | false =>
      rw [runPipeline_err t₁ h1, runPipeline_err t₂ (hok2f h1)]
      rfl

/-- C7 witness: swapping the first two rows of the concrete table leaves the
per-row transform, success, and the per-row outputs unchanged. -/
theorem pipeline_perm_invariant_witness :
    (wellFormed wTable ∧ wTable.Perm wTablePerm) ∧
    (outRow wTable = outRow wTablePerm ∧
      (runPipeline wTable).isOk = (runPipeline wTablePerm).isOk ∧
      runPipeline wTablePerm =
        Except.map (fun _ => wTablePerm.map (outRow wTable)) (runPipeline wTable)) :=
  ⟨⟨by decide, by unfold wTable wTablePerm; exact List.Perm.swap wRow2 wRow1 [wRow3]⟩,
    pipeline_perm_invariant wTable wTablePerm (by decide)
      (by unfold wTable wTablePerm; exact List.Perm.swap wRow2 wRow1 [wRow3])⟩
